import Mathlib

/-!
Verification of the spacecraft reliability tool (`src/reliability.py`).

The program has two functions: `monte_carlo_reliability`, which estimates
mission reliability by repeated random trials, and `analytical_reliability`,
which computes the exact product formula.  We embed both shallowly:

* probabilities and the returned reliabilities are rationals (`ℚ`), an exact
  model of the real-number semantics of the Python floats;
* the ambient numpy random source (`np.random.random()`) is modelled as an
  explicit stream `ℕ → ℚ` of draws, indexed by the order in which the code
  consumes them;
* Python's `int` sample count is `ℤ` (it can be zero or negative), and the
  final `successes / n_samples`, which raises `ZeroDivisionError` when
  `n_samples = 0`, is modelled with `Except`.
-/

/-- Embeds `analytical_reliability` from `src/reliability.py`: start from
`reliability = 1.0` and multiply by `prob_works = 1.0 - fail_prob` for each
subsystem, in order. -/
def analytical_reliability (failure_probs : List ℚ) : ℚ :=
  failure_probs.foldl (fun reliability fail_prob => reliability * (1 - fail_prob)) 1

/-- Embeds the inner subsystem loop of `monte_carlo_reliability` (one trial):
walk the failure probabilities in order, consuming one draw from the stream per
subsystem visited, and stop at the first draw strictly below that subsystem's
failure probability (`break`).  Returns the trial outcome (`mission_success`)
and the index of the next unconsumed draw. -/
def run_trial (failure_probs : List ℚ) (stream : ℕ → ℚ) (k : ℕ) : Bool × ℕ :=
  match failure_probs with
  | [] => (true, k)
  | fail_prob :: rest =>
    if stream k < fail_prob then (false, k + 1)
    else run_trial rest stream (k + 1)

/-- Embeds the outer sampling loop of `monte_carlo_reliability`: run the given
number of trials, threading the stream index from trial to trial, and count the
successful ones.  Returns the success count and the final stream index. -/
def mc_run (failure_probs : List ℚ) (stream : ℕ → ℚ) : ℕ → ℕ → ℕ × ℕ
  | 0, k => (0, k)
  | n + 1, k =>
    let t := run_trial failure_probs stream k
    let rest := mc_run failure_probs stream n t.2
    ((if t.1 then 1 else 0) + rest.1, rest.2)

/-- Embeds `monte_carlo_reliability` from `src/reliability.py`.  `n_samples` is
a Python `int`, so it may be zero or negative; `range(n_samples)` is then empty,
which `Int.toNat` models.  The final statement `successes / n_samples` raises
`ZeroDivisionError` exactly when `n_samples = 0`, modelled as `Except.error`. -/
def monte_carlo_reliability (failure_probs : List ℚ) (n_samples : ℤ)
    (stream : ℕ → ℚ) : Except String ℚ :=
  let successes := (mc_run failure_probs stream n_samples.toNat 0).1
  if n_samples = 0 then Except.error "ZeroDivisionError"
  else Except.ok ((successes : ℚ) / (n_samples : ℚ))

/-- Spec wording for one trial: "a trial succeeds iff no subsystem drew a
failure", a draw being a failure when it is strictly less than that subsystem's
failure probability.  For a trial whose first draw is at stream position `k`,
subsystem `j` (when reached) draws `stream (k + j)`. -/
def spec_trial_success (failure_probs : List ℚ) (stream : ℕ → ℚ) (k : ℕ) : Prop :=
  ∀ j (hj : j < failure_probs.length), ¬ (stream (k + j) < failure_probs.get ⟨j, hj⟩)

instance spec_trial_success_decidable (failure_probs : List ℚ) (stream : ℕ → ℚ)
    (k : ℕ) : Decidable (spec_trial_success failure_probs stream k) :=
  Nat.decidableBallLT _ _

/-- Stream position at which trial `i` starts, when trial `0` starts at
position `k`: each trial resumes where the previous one stopped. -/
def trial_start (failure_probs : List ℚ) (stream : ℕ → ℚ) (k : ℕ) : ℕ → ℕ
  | 0 => k
  | i + 1 => (run_trial failure_probs stream (trial_start failure_probs stream k i)).2

lemma foldl_mul_one_sub (l : List ℚ) (a : ℚ) :
    l.foldl (fun r p => r * (1 - p)) a = a * (l.map (fun p => 1 - p)).prod := by
  induction l generalizing a with
  | nil => simp
  | cons p rest ih => simp [List.foldl_cons, ih, mul_assoc]

lemma analytical_eq_prod (failure_probs : List ℚ) :
    analytical_reliability failure_probs
      = (failure_probs.map (fun p => 1 - p)).prod := by
  simpa using foldl_mul_one_sub failure_probs 1

/-- C1: `analytical_reliability` returns the product, over all subsystems, of
`1 - failure_probability`. -/
theorem analytical_reliability_eq_prod_one_sub (failure_probs : List ℚ) :
    analytical_reliability failure_probs
      = (failure_probs.map (fun p => 1 - p)).prod :=
  analytical_eq_prod failure_probs

/-- C7: on the empty failure-probability vector, `analytical_reliability`
returns exactly `1.0` (the vacuous product). -/
theorem analytical_reliability_nil : analytical_reliability [] = 1 := rfl

/-- C10: `analytical_reliability` is deterministic: two calls with the same
input yield identical results — it is a pure function of the failure
probabilities, with no random stream argument and no hidden state. -/
theorem analytical_reliability_deterministic (probs₁ probs₂ : List ℚ)
    (h : probs₁ = probs₂) :
    analytical_reliability probs₁ = analytical_reliability probs₂ := by
  rw [h]

theorem analytical_reliability_deterministic_witness :
    analytical_reliability [(1 : ℚ)/2, 1/4]
      = analytical_reliability [(1 : ℚ)/2, 1/4] :=
  analytical_reliability_deterministic [(1 : ℚ)/2, 1/4] [(1 : ℚ)/2, 1/4] rfl

lemma prod_mem_unit (l : List ℚ) (h : ∀ x ∈ l, 0 ≤ x ∧ x ≤ 1) :
    0 ≤ l.prod ∧ l.prod ≤ 1 := by
  induction l with
  | nil => simp
  | cons x rest ih =>
    obtain ⟨hx0, hx1⟩ := h x (List.mem_cons_self x rest)
    obtain ⟨hr0, hr1⟩ := ih (fun y hy => h y (List.mem_cons_of_mem x hy))
    refine ⟨by simpa using mul_nonneg hx0 hr0, ?_⟩
    calc x * rest.prod ≤ 1 * 1 := by
          exact mul_le_mul hx1 hr1 hr0 zero_le_one
    _ = 1 := one_mul 1

lemma map_one_sub_mem_unit (l : List ℚ) (h : ∀ p ∈ l, 0 ≤ p ∧ p ≤ 1) :
    ∀ x ∈ l.map (fun p => 1 - p), 0 ≤ x ∧ x ≤ 1 := by
  intro x hx
  obtain ⟨p, hp, rfl⟩ := List.mem_map.1 hx
  obtain ⟨hp0, hp1⟩ := h p hp
  constructor <;> linarith

/-- C5: for a failure-probability vector with every element in `[0, 1]`, the
value of `analytical_reliability` lies in `[0, 1]`. -/
theorem analytical_reliability_mem_unit (failure_probs : List ℚ)
    (h : ∀ p ∈ failure_probs, 0 ≤ p ∧ p ≤ 1) :
    0 ≤ analytical_reliability failure_probs ∧
      analytical_reliability failure_probs ≤ 1 := by
  rw [analytical_eq_prod]
  exact prod_mem_unit _ (map_one_sub_mem_unit failure_probs h)

theorem analytical_reliability_mem_unit_witness :
    0 ≤ analytical_reliability [(1 : ℚ)/100, 1/50] ∧
      analytical_reliability [(1 : ℚ)/100, 1/50] ≤ 1 :=
  analytical_reliability_mem_unit [(1 : ℚ)/100, 1/50]
    (by intro p hp; rcases List.mem_pair.mp hp with rfl | rfl <;> norm_num)

/-- C9: `analytical_reliability` performs no range validation: even when an
input value lies outside `[0, 1]`, it raises no error and still returns the
same product formula over the given values. -/
theorem analytical_reliability_no_validation (failure_probs : List ℚ)
    (_h : ∃ p ∈ failure_probs, p < 0 ∨ 1 < p) :
    analytical_reliability failure_probs
      = (failure_probs.map (fun p => 1 - p)).prod :=
  analytical_eq_prod failure_probs

theorem analytical_reliability_no_validation_witness :
    analytical_reliability [(2 : ℚ)]
      = ([(2 : ℚ)].map (fun p => 1 - p)).prod :=
  analytical_reliability_no_validation [(2 : ℚ)] ⟨2, by simp, by norm_num⟩

lemma analytical_cons (p : ℚ) (rest : List ℚ) :
    analytical_reliability (p :: rest) = (1 - p) * analytical_reliability rest := by
  rw [analytical_eq_prod, analytical_eq_prod, List.map_cons, List.prod_cons]

lemma analytical_set_le (probs : List ℚ) :
    ∀ (i : ℕ), i < probs.length → ∀ v : ℚ,
      (∀ p ∈ probs, 0 ≤ p ∧ p ≤ 1) → v ≤ 1 →
      (∀ hi : i < probs.length, probs.get ⟨i, hi⟩ ≤ v) →
      analytical_reliability (probs.set i v) ≤ analytical_reliability probs := by
  induction probs with
  | nil => intro i hi; exact absurd hi (Nat.not_lt_zero i)
  | cons p rest ih =>
    intro i hi v hall hv1 hle
    cases i with
    | zero =>
      have hp := hle hi
      simp only [List.get] at hp
      have hrest := prod_mem_unit _ (map_one_sub_mem_unit rest
        (fun q hq => hall q (List.mem_cons_of_mem p hq)))
      rw [List.set_cons_zero, analytical_cons, analytical_cons]
      have h1 : (1 : ℚ) - v ≤ 1 - p := by linarith
      rw [analytical_eq_prod]
      exact mul_le_mul_of_nonneg_right h1 hrest.1
    | succ i =>
      have hp := (hall p (List.mem_cons_self p rest)).2
      have hi' : i < rest.length := Nat.lt_of_succ_lt_succ hi
      have hrec := ih i hi' v
        (fun q hq => hall q (List.mem_cons_of_mem p hq)) hv1
        (fun hj => by simpa using hle (Nat.succ_lt_succ hj))
      rw [List.set_cons_succ, analytical_cons, analytical_cons]
      exact mul_le_mul_of_nonneg_left hrec (by linarith)

lemma analytical_set_lt (probs : List ℚ) :
    ∀ (i : ℕ), i < probs.length → ∀ v : ℚ,
      (∀ p ∈ probs, 0 ≤ p ∧ p ≤ 1) → v ≤ 1 →
      (∀ hi : i < probs.length, probs.get ⟨i, hi⟩ < v) →
      (∀ j (hj : j < probs.length), j ≠ i → probs.get ⟨j, hj⟩ < 1) →
      analytical_reliability (probs.set i v) < analytical_reliability probs := by
  induction probs with
  | nil => intro i hi; exact absurd hi (Nat.not_lt_zero i)
  | cons p rest ih =>
    intro i hi v hall hv1 hlt hothers
    cases i with
    | zero =>
      have hp := hlt hi
      simp only [List.get] at hp
      have hrest : 0 < (rest.map (fun q => 1 - q)).prod := by
        refine List.prod_pos (fun x hx => ?_)
        obtain ⟨q, hq, rfl⟩ := List.mem_map.1 hx
        obtain ⟨j, hj, rfl⟩ := List.mem_iff_get.1 hq
        have := hothers (j + 1) (Nat.succ_lt_succ j.isLt) (Nat.succ_ne_zero j)
        simp only [List.get] at this
        linarith
      rw [List.set_cons_zero, analytical_cons, analytical_cons]
      have h1 : (1 : ℚ) - v < 1 - p := by linarith
      rw [analytical_eq_prod]
      exact mul_lt_mul_of_pos_right h1 hrest
    | succ i =>
      have hp : p < 1 := by
        have := hothers 0 (Nat.succ_pos _) (Nat.succ_ne_zero i).symm
        simpa using this
      have hi' : i < rest.length := Nat.lt_of_succ_lt_succ hi
      have hrec := ih i hi' v
        (fun q hq => hall q (List.mem_cons_of_mem p hq)) hv1
        (fun hj => by simpa using hlt (Nat.succ_lt_succ hj))
        (fun j hj hne => by
          have := hothers (j + 1) (Nat.succ_lt_succ hj)
            (fun hc => hne (Nat.succ_injective hc))
          simpa using this)
      rw [List.set_cons_succ, analytical_cons, analytical_cons]
      exact mul_lt_mul_of_pos_left hrec (by linarith)

/-- C4 (corrected): raising one entry of a `[0, 1]`-valued failure-probability
vector (holding the others fixed, the replacement still in `[0, 1]`) weakly
decreases `analytical_reliability`; the decrease is strict provided every other
entry is strictly less than `1`.  The strict claim fails when another entry
equals `1`: the product is then `0` before and after. -/
theorem analytical_reliability_mono (probs : List ℚ) (i : ℕ)
    (hi : i < probs.length) (v : ℚ) (hall : ∀ p ∈ probs, 0 ≤ p ∧ p ≤ 1)
    (hv1 : v ≤ 1) (hlt : probs.get ⟨i, hi⟩ < v) :
    analytical_reliability (probs.set i v) ≤ analytical_reliability probs ∧
      ((∀ j (hj : j < probs.length), j ≠ i → probs.get ⟨j, hj⟩ < 1) →
        analytical_reliability (probs.set i v) < analytical_reliability probs) := by
  constructor
  · exact analytical_set_le probs i hi v hall hv1
      (fun hj => le_of_lt (by simpa using hlt))
  · intro hothers
    exact analytical_set_lt probs i hi v hall hv1
      (fun hj => by simpa using hlt) hothers

theorem analytical_reliability_mono_witness :
    analytical_reliability ([(1 : ℚ)/2, 1/3].set 0 (3/4))
        ≤ analytical_reliability [(1 : ℚ)/2, 1/3] ∧
      ((∀ j (hj : j < ([(1 : ℚ)/2, 1/3]).length), j ≠ 0 →
          ([(1 : ℚ)/2, 1/3]).get ⟨j, hj⟩ < 1) →
        analytical_reliability ([(1 : ℚ)/2, 1/3].set 0 (3/4))
          < analytical_reliability [(1 : ℚ)/2, 1/3]) :=
  analytical_reliability_mono [(1 : ℚ)/2, 1/3] 0 (by norm_num) (3/4)
    (by intro p hp; rcases List.mem_pair.mp hp with rfl | rfl <;> norm_num)
    (by norm_num) (by norm_num)

/-- C4 counterexample: with the vector `[1, 0]` (both entries in `[0, 1]`),
raising the entry at index `1` from `0` to `1/2` leaves the analytical
reliability unchanged at `0`: the result does not strictly decrease. -/
theorem analytical_reliability_mono_counterexample :
    (∀ p ∈ [(1 : ℚ), 0], 0 ≤ p ∧ p ≤ 1) ∧
      (0 : ℚ) < 1/2 ∧ (1 : ℚ)/2 ≤ 1 ∧
      [(1 : ℚ), 0].set 1 (1/2) = [(1 : ℚ), 1/2] ∧
      analytical_reliability [(1 : ℚ), 1/2] = analytical_reliability [(1 : ℚ), 0] ∧
      ¬ (analytical_reliability ([(1 : ℚ), 0].set 1 (1/2))
          < analytical_reliability [(1 : ℚ), 0]) := by
  refine ⟨?_, by norm_num, by norm_num, rfl, ?_, ?_⟩
  · intro p hp; rcases List.mem_pair.mp hp with rfl | rfl <;> norm_num
  · simp [analytical_reliability]
  · simp [analytical_reliability]

lemma spec_trial_success_cons (p : ℚ) (rest : List ℚ) (stream : ℕ → ℚ) (k : ℕ) :
    spec_trial_success (p :: rest) stream k ↔
      ¬ (stream k < p) ∧ spec_trial_success rest stream (k + 1) := by
  constructor
  · intro h
    refine ⟨by simpa using h 0 (Nat.succ_pos rest.length), fun j hj => ?_⟩
    have h2 := h (j + 1) (Nat.succ_lt_succ hj)
    simp only [List.get] at h2
    have hk : k + (j + 1) = k + 1 + j := by omega
    rwa [hk] at h2
  · rintro ⟨h0, hrest⟩ j hj
    cases j with
    | zero => simpa using h0
    | succ j =>
      have h2 := hrest j (Nat.lt_of_succ_lt_succ hj)
      have hk : k + 1 + j = k + (j + 1) := by omega
      rw [hk] at h2
      simpa [List.get] using h2

lemma run_trial_fst_iff (probs : List ℚ) (stream : ℕ → ℚ) :
    ∀ k, (run_trial probs stream k).1 = true ↔ spec_trial_success probs stream k := by
  induction probs with
  | nil =>
    intro k
    simp [run_trial, spec_trial_success]
  | cons p rest ih =>
    intro k
    rw [spec_trial_success_cons]
    by_cases h : stream k < p
    · simp [run_trial, h]
    · simp [run_trial, h, ih (k + 1)]

lemma run_trial_fst_eq_decide (probs : List ℚ) (stream : ℕ → ℚ) (k : ℕ) :
    (run_trial probs stream k).1 = decide (spec_trial_success probs stream k) := by
  cases hb : (run_trial probs stream k).1 with
  | true => exact (decide_eq_true ((run_trial_fst_iff probs stream k).1 hb)).symm
  | false =>
    have hns : ¬ spec_trial_success probs stream k := by
      intro hs
      have h2 := (run_trial_fst_iff probs stream k).2 hs
      rw [hb] at h2
      exact Bool.false_ne_true h2
    exact (decide_eq_false hns).symm

lemma trial_start_succ (probs : List ℚ) (stream : ℕ → ℚ) :
    ∀ (i k : ℕ), trial_start probs stream k (i + 1)
      = trial_start probs stream ((run_trial probs stream k).2) i := by
  intro i
  induction i with
  | zero => intro k; rfl
  | succ i ih =>
    intro k
    show (run_trial probs stream (trial_start probs stream k (i + 1))).2
      = (run_trial probs stream
          (trial_start probs stream ((run_trial probs stream k).2) i)).2
    rw [ih k]

lemma mc_run_fst (probs : List ℚ) (stream : ℕ → ℚ) :
    ∀ (n k : ℕ), (mc_run probs stream n k).1
      = (List.range n).countP
          (fun i => (run_trial probs stream (trial_start probs stream k i)).1) := by
  intro n
  induction n with
  | zero => intro k; rfl
  | succ n ih =>
    intro k
    have hshift : ((fun i => (run_trial probs stream
          (trial_start probs stream k i)).1) ∘ Nat.succ)
        = (fun i => (run_trial probs stream
            (trial_start probs stream ((run_trial probs stream k).2) i)).1) := by
      funext i
      simp only [Function.comp_apply]
      rw [trial_start_succ]
    simp only [mc_run, List.range_succ_eq_map, List.countP_cons, List.countP_map,
      hshift]
    rw [ih ((run_trial probs stream k).2)]
    show (if (run_trial probs stream k).1 = true then 1 else 0) + _
      = _ + if (run_trial probs stream (trial_start probs stream k 0)).1 = true
          then 1 else 0
    show (if (run_trial probs stream k).1 = true then 1 else 0) + _
      = _ + if (run_trial probs stream k).1 = true then 1 else 0
    omega

lemma mc_run_fst_le (probs : List ℚ) (stream : ℕ → ℚ) :
    ∀ (n k : ℕ), (mc_run probs stream n k).1 ≤ n := by
  intro n
  induction n with
  | zero => intro k; exact Nat.le_refl 0
  | succ n ih =>
    intro k
    have h := ih (run_trial probs stream k).2
    simp only [mc_run]
    split <;> omega

lemma mc_run_nil (stream : ℕ → ℚ) :
    ∀ (n k : ℕ), mc_run [] stream n k = (n, k) := by
  intro n
  induction n with
  | zero => intro k; rfl
  | succ n ih =>
    intro k
    simp [mc_run, run_trial, ih k, Nat.add_comm]

/-- C2: for every failure-probability vector, positive `n_samples`, and draw
stream, `monte_carlo_reliability` runs `n_samples` trials in sequence (each
trial resuming the stream where the previous one stopped, having consumed one
draw per subsystem visited and short-circuited at the first failure), a trial
succeeds iff no visited subsystem drew strictly below its failure probability —
equivalently, iff for every position `j` the draw `stream (start + j)` is not
below `failure_probs[j]` — and the returned value is the ratio
`successes / n_samples`. -/
theorem monte_carlo_reliability_spec (failure_probs : List ℚ) (n_samples : ℤ)
    (stream : ℕ → ℚ) (h : 0 < n_samples) :
    monte_carlo_reliability failure_probs n_samples stream =
      Except.ok
        ((((List.range n_samples.toNat).countP
            (fun i => decide (spec_trial_success failure_probs stream
              (trial_start failure_probs stream 0 i)))) : ℚ) / (n_samples : ℚ)) := by
  have hne : n_samples ≠ 0 := ne_of_gt h
  have hpred : (fun i => (run_trial failure_probs stream
        (trial_start failure_probs stream 0 i)).1)
      = (fun i => decide (spec_trial_success failure_probs stream
          (trial_start failure_probs stream 0 i))) :=
    funext fun i => run_trial_fst_eq_decide failure_probs stream _
  simp only [monte_carlo_reliability, if_neg hne, mc_run_fst, hpred]

theorem monte_carlo_reliability_spec_witness :
    monte_carlo_reliability [(1 : ℚ)/2] 1 (fun _ => 0) =
      Except.ok
        ((((List.range (1 : ℤ).toNat).countP
            (fun i => decide (spec_trial_success [(1 : ℚ)/2] (fun _ => 0)
              (trial_start [(1 : ℚ)/2] (fun _ => 0) 0 i)))) : ℚ) / ((1 : ℤ) : ℚ)) :=
  monte_carlo_reliability_spec [(1 : ℚ)/2] 1 (fun _ => 0) (by norm_num)

/-- C3 (corrected): at `n_samples = 0` the final `successes / n_samples` does
raise an explicit `ZeroDivisionError`; but for strictly negative `n_samples`
the sampling loop body never runs (`range` of a negative count is empty) and
the function silently returns the numeric value `0 / n_samples = 0` — no error
is surfaced. -/
theorem monte_carlo_reliability_nonpositive (failure_probs : List ℚ)
    (stream : ℕ → ℚ) (n_samples : ℤ) (hn : n_samples ≤ 0) :
    (n_samples = 0 →
        monte_carlo_reliability failure_probs n_samples stream =
          Except.error "ZeroDivisionError") ∧
      (n_samples < 0 →
        monte_carlo_reliability failure_probs n_samples stream = Except.ok 0) := by
  constructor
  · rintro rfl
    rfl
  · intro hneg
    have htn : n_samples.toNat = 0 := Int.toNat_of_nonpos (le_of_lt hneg)
    have hne : n_samples ≠ 0 := ne_of_lt hneg
    simp only [monte_carlo_reliability, htn, if_neg hne, mc_run]
    norm_num

theorem monte_carlo_reliability_nonpositive_witness :
    (((-2 : ℤ) = 0 →
        monte_carlo_reliability [(1 : ℚ)/2] (-2) (fun _ => 0) =
          Except.error "ZeroDivisionError") ∧
      ((-2 : ℤ) < 0 →
        monte_carlo_reliability [(1 : ℚ)/2] (-2) (fun _ => 0) = Except.ok 0)) :=
  monte_carlo_reliability_nonpositive [(1 : ℚ)/2] (fun _ => 0) (-2) (by norm_num)

/-- C3 counterexample: `n_samples = -1` is nonpositive, yet the call surfaces
no error and silently returns the numeric value `0`. -/
theorem monte_carlo_reliability_nonpositive_counterexample :
    (-1 : ℤ) ≤ 0 ∧
      monte_carlo_reliability [(1 : ℚ)/2] (-1) (fun _ => 0) = Except.ok 0 := by
  refine ⟨by norm_num, ?_⟩
  have htn : (-1 : ℤ).toNat = 0 := rfl
  simp only [monte_carlo_reliability, htn, mc_run]
  norm_num

/-- C6: for every failure-probability vector, positive `n_samples`, and draw
stream, the value returned by `monte_carlo_reliability` is a fraction in
`[0, 1]`. -/
theorem monte_carlo_reliability_mem_unit (failure_probs : List ℚ)
    (n_samples : ℤ) (stream : ℕ → ℚ) (h : 0 < n_samples) :
    ∃ r : ℚ, monte_carlo_reliability failure_probs n_samples stream =
        Except.ok r ∧ 0 ≤ r ∧ r ≤ 1 := by
  have hne : n_samples ≠ 0 := ne_of_gt h
  have hq : (n_samples : ℚ) > 0 := by exact_mod_cast h
  refine ⟨((mc_run failure_probs stream n_samples.toNat 0).1 : ℚ) / (n_samples : ℚ),
    ?_, ?_, ?_⟩
  · simp only [monte_carlo_reliability, if_neg hne]
  · exact div_nonneg (by positivity) (le_of_lt hq)
  · rw [div_le_one hq]
    have hle := mc_run_fst_le failure_probs stream n_samples.toNat 0
    have hcast : ((mc_run failure_probs stream n_samples.toNat 0).1 : ℚ)
        ≤ (n_samples.toNat : ℚ) := by exact_mod_cast hle
    have htn : ((n_samples.toNat : ℚ)) = (n_samples : ℚ) := by
      exact_mod_cast Int.toNat_of_nonneg (le_of_lt h)
    calc ((mc_run failure_probs stream n_samples.toNat 0).1 : ℚ)
        ≤ (n_samples.toNat : ℚ) := hcast
    _ = (n_samples : ℚ) := htn

theorem monte_carlo_reliability_mem_unit_witness :
    ∃ r : ℚ, monte_carlo_reliability [(1 : ℚ)/2] 2 (fun _ => 0) =
        Except.ok r ∧ 0 ≤ r ∧ r ≤ 1 :=
  monte_carlo_reliability_mem_unit [(1 : ℚ)/2] 2 (fun _ => 0) (by norm_num)

/-- C8: on the empty failure-probability vector with positive `n_samples`,
every trial trivially succeeds, so `monte_carlo_reliability` returns exactly
`1` whatever the random stream. -/
theorem monte_carlo_reliability_nil_input (n_samples : ℤ) (stream : ℕ → ℚ)
    (h : 0 < n_samples) :
    monte_carlo_reliability [] n_samples stream = Except.ok 1 := by
  have hne : n_samples ≠ 0 := ne_of_gt h
  have hq : ((n_samples.toNat : ℚ)) = (n_samples : ℚ) := by
    exact_mod_cast Int.toNat_of_nonneg (le_of_lt h)
  have hqne : (n_samples : ℚ) ≠ 0 := by exact_mod_cast hne
  simp only [monte_carlo_reliability, mc_run_nil, if_neg hne, hq, div_self hqne]

theorem monte_carlo_reliability_nil_input_witness :
    monte_carlo_reliability [] 3 (fun _ => 0) = Except.ok 1 :=
  monte_carlo_reliability_nil_input 3 (fun _ => 0) (by norm_num)
